import Mathlib

/-!
Verification of the Sudoku solver / generator / validator core
(`sudokuSolver.ts`, `sudokuGenerator.ts`, `sudokuValidation.ts`).

The board is embedded as a total function `Fin 9 → Fin 9 → Option ℕ`:
`none` models the TypeScript `null`, `some v` a stored number (the source
treats both `null` and `0` as empty in `findEmpty`, and compares cells with
`===`, so `null` and `0` stay distinct values here as well).

The recursive backtracking functions are embedded with an explicit fuel
argument.  Every recursive call of the source fills one empty cell, so a
fuel of 81 (the number of cells) always suffices; the fuel-0 branch returns
exactly what the source returns on a board without empty cells, and is only
reachable in that situation for the fuel used by the top-level entry points.
-/

namespace Sudoku

abbrev Cell := Option ℕ

/-- `SudokuBoard` from `sudokuSolver.ts`: a 9×9 grid of `number | null`. -/
abbrev SudokuBoard := Fin 9 → Fin 9 → Cell

/-- Functional update of one cell (`board[row][col] = v`). -/
def setCell (b : SudokuBoard) (r c : Fin 9) (v : Cell) : SudokuBoard :=
  fun i j => if i = r ∧ j = c then v else b i j

/-- The emptiness test used by `findEmpty`:
`board[i][j] === null || board[i][j] === 0`. -/
def cellIsEmpty (o : Cell) : Bool :=
  decide (o = none ∨ o = some 0)

/-- Index of a cell of the 3×3 box with origin `r - r % 3`
(`i + startRow` in the source). -/
def boxIdx (r : Fin 9) (i : Fin 3) : Fin 9 :=
  ⟨(r : ℕ) - (r : ℕ) % 3 + (i : ℕ), by
    have h1 := r.isLt
    have h2 := i.isLt
    omega⟩

/-- `isValid` from `sudokuSolver.ts`: scans the 9 cells of the row, the 9
cells of the column, and the 9 cells of the 3×3 box with origin
`(row - row % 3, col - col % 3)` for an occurrence of `num`. -/
def isValid (b : SudokuBoard) (row col : Fin 9) (num : ℕ) : Bool :=
  ((List.finRange 9).all fun x => !decide (b row x = some num)) &&
  ((List.finRange 9).all fun x => !decide (b x col = some num)) &&
  ((List.finRange 3).all fun i =>
    (List.finRange 3).all fun j =>
      !decide (b (boxIdx row i) (boxIdx col j) = some num))

/-- `findEmpty` from `sudokuSolver.ts`: first cell (row-major) that is
`null` or `0`. -/
def findEmpty (b : SudokuBoard) : Option (Fin 9 × Fin 9) :=
  (List.finRange 9).findSome? fun i =>
    (List.finRange 9).findSome? fun j =>
      if cellIsEmpty (b i j) then some (i, j) else none

/-- Number of empty cells of a board (the termination measure of the
backtracking search: each recursive call of the source has one more
filled cell). -/
def emptyCount (b : SudokuBoard) : ℕ :=
  ((Finset.univ : Finset (Fin 9 × Fin 9)).filter
    fun p => cellIsEmpty (b p.1 p.2) = true).card

/-- The ascending digit order `for (let num = 1; num <= 9; num++)`. -/
def digits19 : List ℕ := [1, 2, 3, 4, 5, 6, 7, 8, 9]

/-- The digit loop of the backtracking solvers.  `next` is the recursive
call on the rest of the board; the `ℕ` component threads the index of the
next unconsumed `Math.random()` value (used by the generator's randomized
fill).  On recursive failure the tentative digit is undone with
`board[row][col] = null` before the next digit is tried. -/
def solveLoop (next : ℕ → SudokuBoard → Bool × SudokuBoard × ℕ)
    (r c : Fin 9) : List ℕ → ℕ → SudokuBoard → Bool × SudokuBoard × ℕ
  | [], t, b => (false, b, t)
  | n :: rest, t, b =>
    if isValid b r c n then
      let res := next t (setCell b r c (some n))
      if res.1 then res
      else solveLoop next r c rest res.2.2 (setCell res.2.1 r c none)
    else solveLoop next r c rest t b

/-- The backtracking search shared by `solveSudokuInstant` and the
generator's `fillBoard`: find the first empty cell, try the digits given by
`pick` in order, place a valid digit, recurse, undo on failure.  `pick t`
is the digit order of the `t`-th visited node (`[1..9]` for the solver, a
shuffle of `[1..9]` for `fillBoard`). -/
def solveCore (pick : ℕ → List ℕ) : ℕ → ℕ → SudokuBoard → Bool × SudokuBoard × ℕ
  | 0, t, b => (true, b, t)
  | k + 1, t, b =>
    match findEmpty b with
    | none => (true, b, t)
    | some (r, c) => solveLoop (fun u bb => solveCore pick k u bb) r c (pick t) (t + 1) b

/-- `solveSudokuInstant` from `sudokuSolver.ts` (the in-place mutation is
made explicit: the returned board is the state of `board` after the call). -/
def solveSudokuInstant (b : SudokuBoard) : Bool × SudokuBoard :=
  let res := solveCore (fun _ => digits19) 81 0 b
  (res.1, res.2.1)

/-! ### Basic lemmas about cells, `setCell`, `isValid`, `findEmpty` -/

theorem setCell_same (b : SudokuBoard) (r c : Fin 9) (v : Cell) :
    setCell b r c v r c = v := by
  simp [setCell]

theorem setCell_ne (b : SudokuBoard) (r c : Fin 9) (v : Cell) {i j : Fin 9}
    (h : ¬(i = r ∧ j = c)) : setCell b r c v i j = b i j := by
  simp only [setCell, if_neg h]

theorem setCell_setCell (b : SudokuBoard) (r c : Fin 9) (v w : Cell) :
    setCell (setCell b r c v) r c w = setCell b r c w := by
  funext i j
  by_cases h : i = r ∧ j = c
  · simp [setCell, h]
  · simp [setCell, h]

theorem cellIsEmpty_iff {o : Cell} :
    cellIsEmpty o = true ↔ o = none ∨ o = some 0 := by
  simp [cellIsEmpty]

theorem cellIsEmpty_none : cellIsEmpty none = true := by decide

theorem cellIsEmpty_some_of_pos {n : ℕ} (h : 1 ≤ n) :
    cellIsEmpty (some n) = false := by
  simp [cellIsEmpty]
  omega

/-- The box scan of `isValid` visits exactly the cells `(boxIdx row i, boxIdx col j)`;
being a member of the same box is a symmetric relation. -/
theorem boxIdx_boxIdx (r : Fin 9) (u : Fin 3) :
    ∃ w : Fin 3, boxIdx (boxIdx r u) w = r := by
  refine ⟨⟨(r : ℕ) % 3, Nat.mod_lt _ (by norm_num)⟩, ?_⟩
  have h1 := r.isLt
  have h2 := u.isLt
  apply Fin.ext
  simp only [boxIdx]
  omega

theorem isValid_eq_true_iff (b : SudokuBoard) (row col : Fin 9) (num : ℕ) :
    isValid b row col num = true ↔
      (∀ x, b row x ≠ some num) ∧ (∀ x, b x col ≠ some num) ∧
      (∀ i j : Fin 3, b (boxIdx row i) (boxIdx col j) ≠ some num) := by
  simp only [isValid, Bool.and_eq_true, List.all_eq_true, Bool.not_eq_true',
    decide_eq_false_iff_not]
  constructor
  · rintro ⟨⟨h1, h2⟩, h3⟩
    exact ⟨fun x => h1 x (List.mem_finRange x),
      fun x => h2 x (List.mem_finRange x),
      fun i j => h3 i (List.mem_finRange i) j (List.mem_finRange j)⟩
  · rintro ⟨h1, h2, h3⟩
    exact ⟨⟨fun x _ => h1 x, fun x _ => h2 x⟩, fun i _ j _ => h3 i j⟩

theorem isValid_eq_false_iff (b : SudokuBoard) (row col : Fin 9) (num : ℕ) :
    isValid b row col num = false ↔
      (∃ x, b row x = some num) ∨ (∃ x, b x col = some num) ∨
      (∃ i j : Fin 3, b (boxIdx row i) (boxIdx col j) = some num) := by
  rw [← Bool.not_eq_true, isValid_eq_true_iff]
  push_neg
  constructor
  · intro h
    by_cases h1 : ∃ x, b row x = some num
    · exact Or.inl h1
    by_cases h2 : ∃ x, b x col = some num
    · exact Or.inr (Or.inl h2)
    push_neg at h1 h2
    obtain ⟨i, j, hij⟩ := h h1 h2
    exact Or.inr (Or.inr ⟨i, j, hij⟩)
  · rintro (⟨x, hx⟩ | ⟨x, hx⟩ | ⟨i, j, hij⟩) h1 h2
    · exact absurd hx (h1 x)
    · exact absurd hx (h2 x)
    · exact ⟨i, j, hij⟩

theorem findEmpty_eq_none_iff (b : SudokuBoard) :
    findEmpty b = none ↔ ∀ i j, cellIsEmpty (b i j) = false := by
  simp only [findEmpty, List.findSome?_eq_none_iff]
  constructor
  · intro h i j
    have := h i (List.mem_finRange i) j (List.mem_finRange j)
    by_contra hc
    rw [Bool.not_eq_false] at hc
    rw [if_pos hc] at this
    exact Option.some_ne_none _ this
  · intro h i _ j _
    rw [if_neg (by rw [h i j]; exact Bool.false_ne_true)]

theorem findEmpty_isEmpty {b : SudokuBoard} {r c : Fin 9}
    (h : findEmpty b = some (r, c)) : cellIsEmpty (b r c) = true := by
  obtain ⟨i, _, hi⟩ := List.exists_of_findSome?_eq_some h
  obtain ⟨j, _, hj⟩ := List.exists_of_findSome?_eq_some hi
  by_cases hc : cellIsEmpty (b i j) = true
  · rw [if_pos hc] at hj
    obtain ⟨rfl, rfl⟩ : i = r ∧ j = c := by
      injection hj with hj
      exact ⟨congrArg Prod.fst hj, congrArg Prod.snd hj⟩
    exact hc
  · rw [if_neg hc] at hj
    exact absurd hj (Option.some_ne_none _).symm

/-! ### `emptyCount` bookkeeping -/

theorem emptyCount_le_81 (b : SudokuBoard) : emptyCount b ≤ 81 := by
  calc emptyCount b ≤ (Finset.univ : Finset (Fin 9 × Fin 9)).card :=
        Finset.card_filter_le _ _
    _ = 81 := by simp

theorem emptyCount_eq_zero_iff (b : SudokuBoard) :
    emptyCount b = 0 ↔ ∀ i j, cellIsEmpty (b i j) = false := by
  simp only [emptyCount, Finset.card_eq_zero, Finset.filter_eq_empty_iff]
  constructor
  · intro h i j
    have := h (x := (i, j)) (Finset.mem_univ _)
    simpa using this
  · intro h p _
    simp [h p.1 p.2]

/-- Filling an empty cell with a digit ≥ 1 removes exactly one cell from
the empty set. -/
theorem emptyCount_set_fill {b : SudokuBoard} {r c : Fin 9} {n : ℕ}
    (he : cellIsEmpty (b r c) = true) (hn : 1 ≤ n) :
    emptyCount (setCell b r c (some n)) + 1 = emptyCount b := by
  have hset : ((Finset.univ : Finset (Fin 9 × Fin 9)).filter
      fun p => cellIsEmpty (setCell b r c (some n) p.1 p.2) = true) =
      ((Finset.univ : Finset (Fin 9 × Fin 9)).filter
        fun p => cellIsEmpty (b p.1 p.2) = true).erase (r, c) := by
    ext ⟨i, j⟩
    simp only [Finset.mem_filter, Finset.mem_univ, true_and, Finset.mem_erase]
    by_cases h : i = r ∧ j = c
    · obtain ⟨rfl, rfl⟩ := h
      rw [setCell_same]
      simp [cellIsEmpty_some_of_pos hn]
    · rw [setCell_ne _ _ _ _ h]
      have : ((i, j) : Fin 9 × Fin 9) ≠ (r, c) := by
        intro hcon
        apply h
        exact ⟨congrArg Prod.fst hcon, congrArg Prod.snd hcon⟩
      simp [this]
  have hmem : ((r, c) : Fin 9 × Fin 9) ∈
      ((Finset.univ : Finset (Fin 9 × Fin 9)).filter
        fun p => cellIsEmpty (b p.1 p.2) = true) := by
    simp [he]
  have hpos : 0 < ((Finset.univ : Finset (Fin 9 × Fin 9)).filter
      fun p => cellIsEmpty (b p.1 p.2) = true).card :=
    Finset.card_pos.mpr ⟨_, hmem⟩
  rw [emptyCount, hset, Finset.card_erase_of_mem hmem]
  unfold emptyCount
  omega

/-- Emptying a currently nonempty cell adds exactly one cell to the empty
set. -/
theorem emptyCount_set_none {b : SudokuBoard} {r c : Fin 9}
    (he : cellIsEmpty (b r c) = false) :
    emptyCount (setCell b r c none) = emptyCount b + 1 := by
  have hset : ((Finset.univ : Finset (Fin 9 × Fin 9)).filter
      fun p => cellIsEmpty (setCell b r c none p.1 p.2) = true) =
      insert ((r, c) : Fin 9 × Fin 9)
        ((Finset.univ : Finset (Fin 9 × Fin 9)).filter
          fun p => cellIsEmpty (b p.1 p.2) = true) := by
    ext ⟨i, j⟩
    simp only [Finset.mem_filter, Finset.mem_univ, true_and, Finset.mem_insert]
    by_cases h : i = r ∧ j = c
    · obtain ⟨rfl, rfl⟩ := h
      rw [setCell_same]
      simp [cellIsEmpty_none]
    · rw [setCell_ne _ _ _ _ h]
      have : ((i, j) : Fin 9 × Fin 9) ≠ (r, c) := by
        intro hcon
        apply h
        exact ⟨congrArg Prod.fst hcon, congrArg Prod.snd hcon⟩
      simp [this]
  have hnmem : ((r, c) : Fin 9 × Fin 9) ∉
      ((Finset.univ : Finset (Fin 9 × Fin 9)).filter
        fun p => cellIsEmpty (b p.1 p.2) = true) := by
    simp [he]
  rw [emptyCount, hset, Finset.card_insert_of_not_mem hnmem]
  rfl

/-! ### The backtracking undo discipline

On failure every tentative write of the search has been undone with
`board[row][col] = null`.  A cell that originally held the alternative
empty marker `0` and was tried by the search therefore ends as `null`:
the board is restored exactly up to that one deviation. -/

/-- `c` is `b` with some cells that held `0` in `b` turned into `null`. -/
def restoredUpTo (b c : SudokuBoard) : Prop :=
  ∀ i j, c i j = b i j ∨ (b i j = some 0 ∧ c i j = none)

theorem restoredUpTo_refl (b : SudokuBoard) : restoredUpTo b b :=
  fun _ _ => Or.inl rfl

theorem restoredUpTo_trans {a b c : SudokuBoard}
    (h1 : restoredUpTo a b) (h2 : restoredUpTo b c) : restoredUpTo a c := by
  intro i j
  rcases h2 i j with h2' | ⟨h2b, h2c⟩
  · rcases h1 i j with h1' | ⟨h1a, h1b⟩
    · exact Or.inl (h2'.trans h1')
    · exact Or.inr ⟨h1a, h2'.trans h1b⟩
  · rcases h1 i j with h1' | ⟨h1a, h1b⟩
    · exact Or.inr ⟨h1'.symm.trans h2b, h2c⟩
    · exact Or.inr ⟨h1a, h2c⟩

theorem restoredUpTo.cellEmpty_eq {b c : SudokuBoard} (h : restoredUpTo b c)
    (i j : Fin 9) : cellIsEmpty (c i j) = cellIsEmpty (b i j) := by
  rcases h i j with h' | ⟨hb, hc⟩
  · rw [h']
  · rw [hb, hc]
    decide

theorem restoredUpTo.eq_of_not_empty {b c : SudokuBoard} (h : restoredUpTo b c)
    {i j : Fin 9} (hne : cellIsEmpty (b i j) = false) : c i j = b i j := by
  rcases h i j with h' | ⟨hb, _⟩
  · exact h'
  · rw [hb] at hne
    exact absurd hne (by decide)

theorem restoredUpTo.emptyCount_eq {b c : SudokuBoard} (h : restoredUpTo b c) :
    emptyCount c = emptyCount b := by
  unfold emptyCount
  congr 1
  apply Finset.filter_congr
  intro p _
  rw [h.cellEmpty_eq p.1 p.2]

/-- Undoing the tentative digit after a failed recursive call restores the
loop board up to `0 ↦ null`. -/
theorem restoredUpTo_undo {b c : SudokuBoard} {r cc : Fin 9} {n : ℕ}
    (he : cellIsEmpty (b r cc) = true)
    (h : restoredUpTo (setCell b r cc (some n)) c) :
    restoredUpTo b (setCell c r cc none) := by
  intro i j
  by_cases hij : i = r ∧ j = cc
  · obtain ⟨rfl, rfl⟩ := hij
    rw [setCell_same]
    rcases cellIsEmpty_iff.mp he with h0 | h0
    · exact Or.inl h0.symm
    · exact Or.inr ⟨h0, rfl⟩
  · rw [setCell_ne _ _ _ _ hij]
    rcases h i j with h' | ⟨hb, hc⟩
    · rw [setCell_ne _ _ _ _ hij] at h'
      exact Or.inl h'
    · rw [setCell_ne _ _ _ _ hij] at hb
      exact Or.inr ⟨hb, hc⟩

theorem solveLoop_restore (next : ℕ → SudokuBoard → Bool × SudokuBoard × ℕ)
    (r c : Fin 9)
    (hnext : ∀ t b, (next t b).1 = false → restoredUpTo b (next t b).2.1) :
    ∀ (nums : List ℕ) (t : ℕ) (b : SudokuBoard),
      cellIsEmpty (b r c) = true →
      (solveLoop next r c nums t b).1 = false →
      restoredUpTo b (solveLoop next r c nums t b).2.1 := by
  intro nums
  induction nums with
  | nil =>
    intro t b _ _
    simp only [solveLoop]
    exact restoredUpTo_refl b
  | cons n rest ih =>
    intro t b he hf
    by_cases hv : isValid b r c n = true
    · simp only [solveLoop, hv, if_true] at hf ⊢
      by_cases hres : (next t (setCell b r c (some n))).1 = true
      · rw [if_pos hres] at hf
        rw [hres] at hf
        exact absurd hf (by decide)
      · rw [if_neg hres] at hf ⊢
        rw [Bool.not_eq_true] at hres
        have hsub := hnext t (setCell b r c (some n)) hres
        have hb2 := restoredUpTo_undo he hsub
        have he2 : cellIsEmpty
            (setCell (next t (setCell b r c (some n))).2.1 r c none r c) = true := by
          rw [setCell_same]
          exact cellIsEmpty_none
        exact restoredUpTo_trans hb2 (ih _ _ he2 hf)
    · simp only [solveLoop, hv, if_false] at hf ⊢
      exact ih t b he hf

theorem solveCore_restore (pick : ℕ → List ℕ) :
    ∀ (k t : ℕ) (b : SudokuBoard),
      (solveCore pick k t b).1 = false →
      restoredUpTo b (solveCore pick k t b).2.1 := by
  intro k
  induction k with
  | zero =>
    intro t b h
    simp only [solveCore] at h
    exact absurd h (by decide)
  | succ k ih =>
    intro t b h
    cases hfe : findEmpty b with
    | none =>
      have hval : (solveCore pick (k + 1) t b).1 = true := by
        simp [solveCore, hfe]
      rw [hval] at h
      exact absurd h (by decide)
    | some rc =>
      obtain ⟨r, c⟩ := rc
      have heq : solveCore pick (k + 1) t b =
          solveLoop (fun u bb => solveCore pick k u bb) r c (pick t) (t + 1) b := by
        simp [solveCore, hfe]
      rw [heq] at h ⊢
      exact solveLoop_restore _ r c (fun u bb => ih u bb) _ _ _
        (findEmpty_isEmpty hfe) h

/-! ### Soundness of a successful search

When the search returns `true` the final board is completely filled, the
cells that were already filled are untouched, and every cell the search
filled holds a digit 1–9 that occurs nowhere else in its row, column or
box of the final board.  (Nothing is claimed about conflicts between two
cells that were both filled in the input: the source never validates
pre-existing cells.) -/

theorem pair_ne_iff {i j r c : Fin 9} : ((i, j) ≠ (r, c)) ↔ ¬(i = r ∧ j = c) := by
  simp [Prod.ext_iff]

/-- The digit placed by the search at `(i, j)` is unique in its row, column
and box of the final board. -/
def placedOK (c : SudokuBoard) (i j : Fin 9) : Prop :=
  ∃ d, c i j = some d ∧ 1 ≤ d ∧ d ≤ 9 ∧
    (∀ x, x ≠ j → c i x ≠ some d) ∧
    (∀ x, x ≠ i → c x j ≠ some d) ∧
    (∀ u v : Fin 3, (boxIdx i u, boxIdx j v) ≠ (i, j) →
      c (boxIdx i u) (boxIdx j v) ≠ some d)

/-- Conclusions of a successful search started from `b` and ending in `c`. -/
def solvedFrom (b c : SudokuBoard) : Prop :=
  (∀ i j, cellIsEmpty (c i j) = false) ∧
  (∀ i j, cellIsEmpty (b i j) = false → c i j = b i j) ∧
  (∀ i j, cellIsEmpty (b i j) = true → placedOK c i j)

theorem solvedFrom_of_restored {b b2 c : SudokuBoard}
    (hr : restoredUpTo b b2) (hs : solvedFrom b2 c) : solvedFrom b c := by
  obtain ⟨h1, h2, h3⟩ := hs
  refine ⟨h1, ?_, ?_⟩
  · intro i j hne
    have hne2 : cellIsEmpty (b2 i j) = false := by
      rw [hr.cellEmpty_eq i j]; exact hne
    rw [h2 i j hne2, hr.eq_of_not_empty hne]
  · intro i j he
    apply h3
    rw [hr.cellEmpty_eq i j]
    exact he

theorem solveLoop_sound (next : ℕ → SudokuBoard → Bool × SudokuBoard × ℕ)
    (r c : Fin 9) (kk : ℕ)
    (hnextS : ∀ t b, emptyCount b ≤ kk → (next t b).1 = true →
      solvedFrom b (next t b).2.1)
    (hnextR : ∀ t b, (next t b).1 = false → restoredUpTo b (next t b).2.1) :
    ∀ (nums : List ℕ), (∀ n ∈ nums, 1 ≤ n ∧ n ≤ 9) →
    ∀ (t : ℕ) (b : SudokuBoard), emptyCount b ≤ kk + 1 →
      cellIsEmpty (b r c) = true →
      (solveLoop next r c nums t b).1 = true →
      solvedFrom b (solveLoop next r c nums t b).2.1 := by
  intro nums
  induction nums with
  | nil =>
    intro _ t b _ _ hs
    simp only [solveLoop] at hs
    exact absurd hs (by decide)
  | cons n rest ih =>
    intro hnums t b hcnt he hs
    have hn : 1 ≤ n ∧ n ≤ 9 := hnums n (List.mem_cons_self n rest)
    by_cases hv : isValid b r c n = true
    · simp only [solveLoop, hv, if_true] at hs ⊢
      by_cases hres : (next t (setCell b r c (some n))).1 = true
      · rw [if_pos hres] at hs ⊢
        -- successful recursive call after placing n at (r, c)
        have hb1cnt : emptyCount (setCell b r c (some n)) ≤ kk := by
          have := emptyCount_set_fill he hn.1
          omega
        obtain ⟨hFull, hExt, hPlaced⟩ := hnextS t _ hb1cnt hres
        set cfin := (next t (setCell b r c (some n))).2.1 with hcfin
        have hrc : cfin r c = some n := by
          have : cellIsEmpty (setCell b r c (some n) r c) = false := by
            rw [setCell_same]; exact cellIsEmpty_some_of_pos hn.1
          rw [hExt r c this, setCell_same]
        have hval := (isValid_eq_true_iff b r c n).mp hv
        refine ⟨hFull, ?_, ?_⟩
        · -- untouched originally filled cells
          intro i j hne
          have hij : ¬(i = r ∧ j = c) := by
            rintro ⟨rfl, rfl⟩
            rw [he] at hne
            exact absurd hne (by decide)
          have hne1 : cellIsEmpty (setCell b r c (some n) i j) = false := by
            rw [setCell_ne _ _ _ _ hij]; exact hne
          rw [hExt i j hne1, setCell_ne _ _ _ _ hij]
        · -- all cells that were empty in b are placedOK in cfin
          intro i j hemp
          by_cases hij : i = r ∧ j = c
          · obtain ⟨rfl, rfl⟩ := hij
            refine ⟨n, hrc, hn.1, hn.2, ?_, ?_, ?_⟩
            · -- row uniqueness
              intro x hx hcon
              by_cases hx1 : cellIsEmpty (setCell b i j (some n) i x) = true
              · obtain ⟨d, hd, _, _, hrowU, _, _⟩ := hPlaced i x hx1
                have hdn : d = n := (Option.some.injEq _ _).mp (hd.symm.trans hcon)
                exact hrowU j (Ne.symm hx) (by rw [hdn]; exact hrc)
              · rw [Bool.not_eq_true] at hx1
                rw [hExt i x hx1,
                  setCell_ne _ _ _ _ (by rintro ⟨_, rfl⟩; exact hx rfl)] at hcon
                exact hval.1 x hcon
            · -- column uniqueness
              intro x hx hcon
              by_cases hx1 : cellIsEmpty (setCell b i j (some n) x j) = true
              · obtain ⟨d, hd, _, _, _, hcolU, _⟩ := hPlaced x j hx1
                have hdn : d = n := (Option.some.injEq _ _).mp (hd.symm.trans hcon)
                exact hcolU i (Ne.symm hx) (by rw [hdn]; exact hrc)
              · rw [Bool.not_eq_true] at hx1
                rw [hExt x j hx1,
                  setCell_ne _ _ _ _ (by rintro ⟨rfl, _⟩; exact hx rfl)] at hcon
                exact hval.2.1 x hcon
            · -- box uniqueness
              intro u v huv hcon
              by_cases hx1 :
                  cellIsEmpty (setCell b i j (some n) (boxIdx i u) (boxIdx j v)) = true
              · obtain ⟨d, hd, _, _, _, _, hboxU⟩ := hPlaced _ _ hx1
                have hdn : d = n := (Option.some.injEq _ _).mp (hd.symm.trans hcon)
                obtain ⟨u2, hu2⟩ := boxIdx_boxIdx i u
                obtain ⟨v2, hv2⟩ := boxIdx_boxIdx j v
                have hne2 : (boxIdx (boxIdx i u) u2, boxIdx (boxIdx j v) v2) ≠
                    (boxIdx i u, boxIdx j v) := by
                  rw [hu2, hv2]
                  exact fun hcon2 => huv hcon2.symm
                have hres2 := hboxU u2 v2 hne2
                rw [hu2, hv2, hdn] at hres2
                exact hres2 hrc
              · rw [Bool.not_eq_true] at hx1
                rw [hExt _ _ hx1, setCell_ne _ _ _ _ (pair_ne_iff.mp huv)] at hcon
                exact hval.2.2 u v hcon
          · have hemp1 : cellIsEmpty (setCell b r c (some n) i j) = true := by
              rw [setCell_ne _ _ _ _ hij]; exact hemp
            exact hPlaced i j hemp1
      · rw [if_neg hres] at hs ⊢
        rw [Bool.not_eq_true] at hres
        have hsub := hnextR t (setCell b r c (some n)) hres
        have hb2 := restoredUpTo_undo he hsub
        have hcnt1 := emptyCount_set_fill he hn.1
        have hrescnt : emptyCount (next t (setCell b r c (some n))).2.1 =
            emptyCount (setCell b r c (some n)) := hsub.emptyCount_eq
        have hresrc : cellIsEmpty ((next t (setCell b r c (some n))).2.1 r c) = false := by
          rw [hsub.cellEmpty_eq r c, setCell_same]
          exact cellIsEmpty_some_of_pos hn.1
        have hcnt2 : emptyCount
            (setCell (next t (setCell b r c (some n))).2.1 r c none) ≤ kk + 1 := by
          rw [emptyCount_set_none hresrc]
          omega
        have he2 : cellIsEmpty
            (setCell (next t (setCell b r c (some n))).2.1 r c none r c) = true := by
          rw [setCell_same]; exact cellIsEmpty_none
        exact solvedFrom_of_restored hb2
          (ih (fun m hm => hnums m (List.mem_cons_of_mem n hm)) _ _ hcnt2 he2 hs)
    · simp only [solveLoop, hv, if_false] at hs ⊢
      exact ih (fun m hm => hnums m (List.mem_cons_of_mem n hm)) t b hcnt he hs

theorem solveCore_sound (pick : ℕ → List ℕ)
    (hpick : ∀ t, ∀ n ∈ pick t, 1 ≤ n ∧ n ≤ 9) :
    ∀ (k t : ℕ) (b : SudokuBoard), emptyCount b ≤ k →
      (solveCore pick k t b).1 = true →
      solvedFrom b (solveCore pick k t b).2.1 := by
  intro k
  induction k with
  | zero =>
    intro t b hcnt _
    have hfull := (emptyCount_eq_zero_iff b).mp (Nat.le_zero.mp hcnt)
    exact ⟨hfull, fun i j _ => rfl, fun i j he => absurd he (by rw [hfull i j]; decide)⟩
  | succ k ih =>
    intro t b hcnt hs
    cases hfe : findEmpty b with
    | none =>
      have heq : solveCore pick (k + 1) t b = (true, b, t) := by
        simp [solveCore, hfe]
      rw [heq]
      have hfull := (findEmpty_eq_none_iff b).mp hfe
      exact ⟨hfull, fun i j _ => rfl, fun i j he => absurd he (by rw [hfull i j]; decide)⟩
    | some rc =>
      obtain ⟨r, c⟩ := rc
      have heq : solveCore pick (k + 1) t b =
          solveLoop (fun u bb => solveCore pick k u bb) r c (pick t) (t + 1) b := by
        simp [solveCore, hfe]
      rw [heq] at hs ⊢
      exact solveLoop_sound _ r c k (fun u bb => ih u bb)
        (fun u bb => solveCore_restore pick k u bb) (pick t) (hpick t) _ _
        hcnt (findEmpty_isEmpty hfe) hs

/-! ### Completeness of the search

If the board is contained in a full valid solution grid, the backtracking
search succeeds — for any digit trial orders, as long as each order offers
every digit 1–9.  This is what makes the generator's randomized `fillBoard`
always succeed from the empty board. -/

/-- Every filled cell of `b` agrees with `S`. -/
def subOf (b S : SudokuBoard) : Prop :=
  ∀ i j v, b i j = some v → S i j = some v

/-- `S` is a completely filled board with digits 1–9 that are pairwise
distinct in every row, column and box. -/
def fullSolution (S : SudokuBoard) : Prop :=
  (∀ i j, ∃ d, S i j = some d ∧ 1 ≤ d ∧ d ≤ 9) ∧
  (∀ i : Fin 9, ∀ x y : Fin 9, x ≠ y → S i x ≠ S i y) ∧
  (∀ j : Fin 9, ∀ x y : Fin 9, x ≠ y → S x j ≠ S y j) ∧
  (∀ i j : Fin 9, ∀ u v : Fin 3, (boxIdx i u, boxIdx j v) ≠ (i, j) →
    S (boxIdx i u) (boxIdx j v) ≠ S i j)

theorem subOf_none_of_empty {b S : SudokuBoard} (hsub : subOf b S)
    (hS : fullSolution S) {r c : Fin 9} (he : cellIsEmpty (b r c) = true) :
    b r c = none := by
  rcases cellIsEmpty_iff.mp he with h | h
  · exact h
  · obtain ⟨d, hd, h1, _⟩ := hS.1 r c
    have := hsub r c 0 h
    rw [this] at hd
    injection hd with hd
    omega

theorem subOf_setCell {b S : SudokuBoard} (hsub : subOf b S) {r c : Fin 9}
    {d : ℕ} (hd : S r c = some d) : subOf (setCell b r c (some d)) S := by
  intro i j v hv
  by_cases hij : i = r ∧ j = c
  · obtain ⟨rfl, rfl⟩ := hij
    rw [setCell_same] at hv
    injection hv with hv
    rw [← hv]
    exact hd
  · rw [setCell_ne _ _ _ _ hij] at hv
    exact hsub i j v hv

theorem subOf_of_restored {b c S : SudokuBoard} (hr : restoredUpTo b c)
    (hsub : subOf b S) : subOf c S := by
  intro i j v hv
  rcases hr i j with h | ⟨_, hnone⟩
  · exact hsub i j v (h ▸ hv)
  · rw [hnone] at hv
    exact absurd hv (Option.noConfusion)

/-- Placing the solution's digit at an empty cell always passes `isValid`. -/
theorem isValid_of_solution {b S : SudokuBoard} (hsub : subOf b S)
    (hS : fullSolution S) {r c : Fin 9} {d : ℕ} (hrc : b r c = none)
    (hd : S r c = some d) : isValid b r c d = true := by
  rw [isValid_eq_true_iff]
  refine ⟨?_, ?_, ?_⟩
  · intro x hx
    have hSx : S r x = some d := hsub r x d hx
    by_cases hxc : x = c
    · rw [hxc] at hx
      rw [hrc] at hx
      exact Option.noConfusion hx
    · exact hS.2.1 r x c hxc (hSx.trans hd.symm)
  · intro x hx
    have hSx : S x c = some d := hsub x c d hx
    by_cases hxr : x = r
    · rw [hxr, hrc] at hx
      exact Option.noConfusion hx
    · exact hS.2.2.1 c x r hxr (hSx.trans hd.symm)
  · intro u v huv
    have hSx : S (boxIdx r u) (boxIdx c v) = some d := hsub _ _ d huv
    by_cases hne : (boxIdx r u, boxIdx c v) = (r, c)
    · have h1 : boxIdx r u = r := congrArg Prod.fst hne
      have h2 : boxIdx c v = c := congrArg Prod.snd hne
      rw [h1, h2, hrc] at huv
      exact Option.noConfusion huv
    · exact hS.2.2.2 r c u v hne (hSx.trans hd.symm)

theorem solveLoop_complete (next : ℕ → SudokuBoard → Bool × SudokuBoard × ℕ)
    (r c : Fin 9) (S : SudokuBoard) (hS : fullSolution S) (kk : ℕ)
    (hnextC : ∀ t b, emptyCount b ≤ kk → subOf b S → (next t b).1 = true)
    (hnextR : ∀ t b, (next t b).1 = false → restoredUpTo b (next t b).2.1) :
    ∀ (nums : List ℕ) (t : ℕ) (b : SudokuBoard) (d : ℕ),
      emptyCount b ≤ kk + 1 → subOf b S → b r c = none → S r c = some d →
      d ∈ nums → (solveLoop next r c nums t b).1 = true := by
  intro nums
  induction nums with
  | nil =>
    intro t b d _ _ _ _ hmem
    exact absurd hmem (List.not_mem_nil d)
  | cons n rest ih =>
    intro t b d hcnt hsub hrc hd hmem
    have hdpos : 1 ≤ d ∧ d ≤ 9 := by
      obtain ⟨d2, hd2, h1, h9⟩ := hS.1 r c
      rw [hd] at hd2
      injection hd2 with hd2
      omega
    have hemp : cellIsEmpty (b r c) = true := by
      rw [hrc]; exact cellIsEmpty_none
    by_cases hnd : n = d
    · subst hnd
      have hv := isValid_of_solution hsub hS hrc hd
      simp only [solveLoop, hv, if_true]
      have hb1sub := subOf_setCell hsub hd
      have hb1cnt : emptyCount (setCell b r c (some n)) ≤ kk := by
        have := emptyCount_set_fill hemp hdpos.1
        omega
      have hres := hnextC t _ hb1cnt hb1sub
      rw [if_pos hres]
      exact hres
    · have hdrest : d ∈ rest := by
        rcases List.mem_cons.mp hmem with h | h
        · exact absurd h.symm hnd
        · exact h
      by_cases hv : isValid b r c n = true
      · simp only [solveLoop, hv, if_true]
        by_cases hres : (next t (setCell b r c (some n))).1 = true
        · rw [if_pos hres]
          exact hres
        · rw [if_neg hres]
          rw [Bool.not_eq_true] at hres
          have hrest := hnextR t (setCell b r c (some n)) hres
          have hb2 := restoredUpTo_undo hemp hrest
          set b2 := setCell (next t (setCell b r c (some n))).2.1 r c none with hb2def
          have hb2sub : subOf b2 S := by
            intro i j v hv2
            by_cases hij : i = r ∧ j = c
            · obtain ⟨rfl, rfl⟩ := hij
              rw [hb2def, setCell_same] at hv2
              exact absurd hv2 Option.noConfusion
            · rcases hb2 i j with h | ⟨_, hnone⟩
              · exact hsub i j v (h ▸ hv2)
              · rw [hnone] at hv2
                exact absurd hv2 Option.noConfusion
          have hb2cnt : emptyCount b2 ≤ kk + 1 := by
            rw [hb2.emptyCount_eq]
            exact hcnt
          have hb2rc : b2 r c = none := by
            rw [hb2def, setCell_same]
          exact ih _ b2 d hb2cnt hb2sub hb2rc hd hdrest
      · simp only [solveLoop, hv, if_false]
        exact ih t b d hcnt hsub hrc hd hdrest

theorem solveCore_complete (pick : ℕ → List ℕ) (S : SudokuBoard)
    (hS : fullSolution S) (hpick : ∀ t d, 1 ≤ d → d ≤ 9 → d ∈ pick t) :
    ∀ (k t : ℕ) (b : SudokuBoard), emptyCount b ≤ k → subOf b S →
      (solveCore pick k t b).1 = true := by
  intro k
  induction k with
  | zero =>
    intro t b _ _
    simp [solveCore]
  | succ k ih =>
    intro t b hcnt hsub
    cases hfe : findEmpty b with
    | none =>
      have heq : solveCore pick (k + 1) t b = (true, b, t) := by
        simp [solveCore, hfe]
      rw [heq]
    | some rc =>
      obtain ⟨r, c⟩ := rc
      have heq : solveCore pick (k + 1) t b =
          solveLoop (fun u bb => solveCore pick k u bb) r c (pick t) (t + 1) b := by
        simp [solveCore, hfe]
      rw [heq]
      have hrc := subOf_none_of_empty hsub hS (findEmpty_isEmpty hfe)
      obtain ⟨d, hd, h1, h9⟩ := hS.1 r c
      exact solveLoop_complete _ r c S hS k (fun u bb => ih u bb)
        (fun u bb => solveCore_restore pick k u bb) (pick t) _ b d
        hcnt hsub hrc hd (hpick t d h1 h9)

/-! ### The traced solver `solveSudoku`

`solveSudoku` is the same backtracking search as `solveSudokuInstant`, but
the `onStep` callback receives a deep copy of the board together with the
coordinates just written — immediately after every placement and
immediately after every backtrack removal.  The embedding collects those
callback arguments into an ordered list (the await/setTimeout delays of the
source only pace the animation and carry no data). -/

/-- One `onStep` record: `([...board.map(r => [...r])], row, col)`. -/
abbrev SolveStep := SudokuBoard × Fin 9 × Fin 9

def solveTracedLoop (next : SudokuBoard → Bool × SudokuBoard × List SolveStep)
    (r c : Fin 9) : List ℕ → SudokuBoard → Bool × SudokuBoard × List SolveStep
  | [], b => (false, b, [])
  | n :: rest, b =>
    if isValid b r c n then
      let b1 := setCell b r c (some n)
      let res := next b1
      if res.1 then (true, res.2.1, (b1, r, c) :: res.2.2)
      else
        let b2 := setCell res.2.1 r c none
        let rem := solveTracedLoop next r c rest b2
        (rem.1, rem.2.1, (b1, r, c) :: (res.2.2 ++ (b2, r, c) :: rem.2.2))
    else solveTracedLoop next r c rest b

/-- `solveSudoku` from `sudokuSolver.ts`, with the sequence of `onStep`
snapshots returned alongside the result and final board state. -/
def solveSudoku : ℕ → SudokuBoard → Bool × SudokuBoard × List SolveStep
  | 0, b => (true, b, [])
  | k + 1, b =>
    match findEmpty b with
    | none => (true, b, [])
    | some (r, c) => solveTracedLoop (fun bb => solveSudoku k bb) r c digits19 b

/-- Replaying a step sequence: each step replaces the current state with
its recorded snapshot; the result is the final state after all steps. -/
def replay (b : SudokuBoard) (steps : List SolveStep) : SudokuBoard :=
  steps.foldl (fun _ st => st.1) b

theorem replay_nil (b : SudokuBoard) : replay b [] = b := rfl

theorem replay_cons (b : SudokuBoard) (st : SolveStep) (steps : List SolveStep) :
    replay b (st :: steps) = replay st.1 steps := rfl

theorem replay_append (b : SudokuBoard) (s1 s2 : List SolveStep) :
    replay b (s1 ++ s2) = replay (replay b s1) s2 :=
  List.foldl_append _ _ _ _

/-- The final recorded snapshot (or the original board when no step was
recorded) is always the final state of the traced search. -/
theorem solveTracedLoop_replay (next : SudokuBoard → Bool × SudokuBoard × List SolveStep)
    (r c : Fin 9)
    (hnext : ∀ b, replay b (next b).2.2 = (next b).2.1) :
    ∀ (nums : List ℕ) (b : SudokuBoard),
      replay b (solveTracedLoop next r c nums b).2.2 =
        (solveTracedLoop next r c nums b).2.1 := by
  intro nums
  induction nums with
  | nil =>
    intro b
    simp only [solveTracedLoop]
    exact replay_nil b
  | cons n rest ih =>
    intro b
    by_cases hv : isValid b r c n = true
    · simp only [solveTracedLoop, hv, if_true]
      by_cases hres : (next (setCell b r c (some n))).1 = true
      · rw [if_pos hres]
        exact hnext (setCell b r c (some n))
      · rw [if_neg hres]
        rw [replay_cons, replay_append, hnext (setCell b r c (some n)), replay_cons]
        exact ih _
    · simp only [solveTracedLoop, hv, if_false]
      exact ih b

theorem solveSudoku_replay :
    ∀ (k : ℕ) (b : SudokuBoard),
      replay b (solveSudoku k b).2.2 = (solveSudoku k b).2.1 := by
  intro k
  induction k with
  | zero =>
    intro b
    simp only [solveSudoku]
    exact replay_nil b
  | succ k ih =>
    intro b
    cases hfe : findEmpty b with
    | none =>
      have heq : solveSudoku (k + 1) b = (true, b, []) := by
        simp [solveSudoku, hfe]
      rw [heq]
      exact replay_nil b
    | some rc =>
      obtain ⟨r, c⟩ := rc
      have heq : solveSudoku (k + 1) b =
          solveTracedLoop (fun bb => solveSudoku k bb) r c digits19 b := by
        simp [solveSudoku, hfe]
      rw [heq]
      exact solveTracedLoop_replay _ r c (fun bb => ih bb) digits19 b

/-- The traced search returns the same result flag and the same final board
as the instant search (the two sources differ only in the callback). -/
theorem solveTracedLoop_eq_solveLoop
    (nextT : SudokuBoard → Bool × SudokuBoard × List SolveStep)
    (nextC : ℕ → SudokuBoard → Bool × SudokuBoard × ℕ) (r c : Fin 9)
    (hnext : ∀ b t, (nextT b).1 = (nextC t b).1 ∧ (nextT b).2.1 = (nextC t b).2.1) :
    ∀ (nums : List ℕ) (t : ℕ) (b : SudokuBoard),
      (solveTracedLoop nextT r c nums b).1 = (solveLoop nextC r c nums t b).1 ∧
      (solveTracedLoop nextT r c nums b).2.1 = (solveLoop nextC r c nums t b).2.1 := by
  intro nums
  induction nums with
  | nil =>
    intro t b
    exact ⟨rfl, rfl⟩
  | cons n rest ih =>
    intro t b
    by_cases hv : isValid b r c n = true
    · simp only [solveTracedLoop, solveLoop, hv, if_true]
      obtain ⟨h1, h2⟩ := hnext (setCell b r c (some n)) t
      by_cases hres : (nextT (setCell b r c (some n))).1 = true
      · rw [if_pos hres, if_pos (h1.symm.trans hres)]
        exact ⟨(h1.symm.trans hres).symm, h2⟩
      · rw [if_neg hres, if_neg (fun hc => hres (h1.trans hc))]
        rw [h2]
        exact ih _ _
    · simp only [solveTracedLoop, solveLoop, hv, if_false]
      exact ih t b

theorem solveSudoku_eq_solveCore :
    ∀ (k t : ℕ) (b : SudokuBoard),
      (solveSudoku k b).1 = (solveCore (fun _ => digits19) k t b).1 ∧
      (solveSudoku k b).2.1 = (solveCore (fun _ => digits19) k t b).2.1 := by
  intro k
  induction k with
  | zero =>
    intro t b
    exact ⟨rfl, rfl⟩
  | succ k ih =>
    intro t b
    cases hfe : findEmpty b with
    | none =>
      have heqT : solveSudoku (k + 1) b = (true, b, []) := by
        simp [solveSudoku, hfe]
      have heqC : solveCore (fun _ => digits19) (k + 1) t b = (true, b, t) := by
        simp [solveCore, hfe]
      rw [heqT, heqC]
      exact ⟨rfl, rfl⟩
    | some rc =>
      obtain ⟨r, c⟩ := rc
      have heqT : solveSudoku (k + 1) b =
          solveTracedLoop (fun bb => solveSudoku k bb) r c digits19 b := by
        simp [solveSudoku, hfe]
      have heqC : solveCore (fun _ => digits19) (k + 1) t b =
          solveLoop (fun u bb => solveCore (fun _ => digits19) k u bb) r c
            digits19 (t + 1) b := by
        simp [solveCore, hfe]
      rw [heqT, heqC]
      exact solveTracedLoop_eq_solveLoop _ _ r c (fun bb u => ih u bb) digits19 (t + 1) b

/-! ### The generator (`sudokuGenerator.ts`)

Randomness is modelled by a stream `rand : ℕ → ℕ` of draws; the `k`-th
`Math.floor(Math.random() * (i + 1))` of a Fisher–Yates run is embedded as
`rand k % (i + 1)`, which ranges over exactly the same values `0..i`.
Quantifying over all streams covers every outcome of the internal random
choices. -/

/-- The destructuring swap `[a[i], a[j]] = [a[j], a[i]]`. -/
def listSwap {α : Type _} (l : List α) (i j : ℕ) : List α :=
  match l[i]?, l[j]? with
  | some a, some b => (l.set i b).set j a
  | _, _ => l

/-- The loop body of `shuffle` (Fisher–Yates), iterating the index `i` of
the source's `for (let i = newArray.length - 1; i > 0; i--)` downwards;
`k` is the index of the next unconsumed random draw. -/
def shuffleAux {α : Type _} (f : ℕ → ℕ) : ℕ → ℕ → List α → List α
  | 0, _, l => l
  | i + 1, k, l => shuffleAux f i (k + 1) (listSwap l (i + 1) (f k % (i + 2)))

/-- `shuffle` from `sudokuGenerator.ts` (Fisher–Yates on a copy). -/
def shuffle {α : Type _} (f : ℕ → ℕ) (l : List α) : List α :=
  shuffleAux f (l.length - 1) 0 l

theorem mem_listSwap {α : Type _} {l : List α} {i j : ℕ} {a : α} :
    a ∈ listSwap l i j ↔ a ∈ l := by
  unfold listSwap
  split
  · rename_i a0 b0 h1 h2
    obtain ⟨hi, hia⟩ := List.getElem?_eq_some.mp h1
    obtain ⟨hj, hja⟩ := List.getElem?_eq_some.mp h2
    by_cases hij : i = j
    · subst hij
      rw [List.set_set]
      have heq : l.set i a0 = l := by
        apply List.ext_getElem?
        intro n
        by_cases hn : i = n
        · subst hn
          rw [List.getElem?_set_self hi, List.getElem?_eq_getElem hi, hia]
        · rw [List.getElem?_set_ne hn]
      rw [heq]
    · constructor
      · intro hmem
        rcases List.mem_or_eq_of_mem_set hmem with hmem2 | rfl
        · rcases List.mem_or_eq_of_mem_set hmem2 with hmem3 | rfl
          · exact hmem3
          · rw [← hja]
            exact List.getElem_mem hj
        · rw [← hia]
          exact List.getElem_mem hi
      · intro hmem
        obtain ⟨n, hn⟩ := List.mem_iff_getElem?.mp hmem
        by_cases hni : n = i
        · refine List.mem_iff_getElem?.mpr ⟨j, ?_⟩
          rw [List.getElem?_set_self (by rw [List.length_set]; exact hj)]
          rw [hni, List.getElem?_eq_getElem hi] at hn
          injection hn with hn
          rw [← hia, hn]
        · by_cases hnj : n = j
          · refine List.mem_iff_getElem?.mpr ⟨i, ?_⟩
            rw [List.getElem?_set_ne (fun hc => hij hc.symm),
              List.getElem?_set_self hi]
            rw [hnj, List.getElem?_eq_getElem hj] at hn
            injection hn with hn
            rw [← hja, hn]
          · refine List.mem_iff_getElem?.mpr ⟨n, ?_⟩
            rw [List.getElem?_set_ne (fun hc => hnj hc.symm),
              List.getElem?_set_ne (fun hc => hni hc.symm)]
            exact hn
  · exact Iff.rfl

theorem mem_shuffleAux {α : Type _} (f : ℕ → ℕ) {a : α} :
    ∀ (i k : ℕ) (l : List α), a ∈ shuffleAux f i k l ↔ a ∈ l := by
  intro i
  induction i with
  | zero => intro k l; exact Iff.rfl
  | succ i ih =>
    intro k l
    exact (ih (k + 1) _).trans mem_listSwap

theorem mem_shuffle {α : Type _} (f : ℕ → ℕ) {a : α} (l : List α) :
    a ∈ shuffle f l ↔ a ∈ l :=
  mem_shuffleAux f _ 0 l

/-- `createEmptyBoard` from `sudokuGenerator.ts`. -/
def createEmptyBoard : SudokuBoard := fun _ _ => none

/-- The digit order tried by `fillBoard` at its `t`-th visited node: a
fresh Fisher–Yates shuffle of `[1..9]`, consuming the 8 random draws
`rand (8t) .. rand (8t+7)`. -/
def fillPick (rand : ℕ → ℕ) (t : ℕ) : List ℕ :=
  shuffle (fun s => rand (8 * t + s)) digits19

/-- `fillBoard` from `sudokuGenerator.ts`: the same backtracking search as
the solver, with a randomly shuffled digit order at every node.  The final
`ℕ` is the number of visited nodes (= shuffles consumed). -/
def fillBoard (rand : ℕ → ℕ) (b : SudokuBoard) : Bool × SudokuBoard × ℕ :=
  solveCore (fillPick rand) 81 0 b

/-- The digit loop of `countSolutions`: the count accumulates across the
digits and short-circuits as soon as it reaches `limit`; the board is
threaded exactly as the source mutates it. -/
def countLoop (next : SudokuBoard → ℕ × SudokuBoard) (r c : Fin 9)
    (limit : ℕ) : List ℕ → SudokuBoard → ℕ → ℕ × SudokuBoard
  | [], b, count => (count, b)
  | n :: rest, b, count =>
    if isValid b r c n then
      let res := next (setCell b r c (some n))
      let b2 := setCell res.2 r c none
      if limit ≤ count + res.1 then (count + res.1, b2)
      else countLoop next r c limit rest b2 (count + res.1)
    else countLoop next r c limit rest b count

/-- `countSolutions` from `sudokuGenerator.ts` (fuel-indexed like the
solvers; the returned board is the state of the mutated argument after the
call, which the caller discards because it counts on a copy). -/
def countSolutions : ℕ → SudokuBoard → ℕ → ℕ × SudokuBoard
  | 0, b, _ => (1, b)
  | k + 1, b, limit =>
    match findEmpty b with
    | none => (1, b)
    | some (r, c) =>
      countLoop (fun bb => countSolutions k bb limit) r c limit digits19 b 0

/-- The cell list `Array.from({length: 81}, (_, i) => [i / 9 | 0, i % 9])`. -/
def allCells : List (Fin 9 × Fin 9) :=
  (List.finRange 81).map fun (i : Fin 81) =>
    (⟨(i : ℕ) / 9, by have := i.isLt; omega⟩, ⟨(i : ℕ) % 9, by omega⟩)

/-- The removal loop of `removeNumbers`: walk the shuffled cell list; stop
once `cellsToRemove` cells are removed; clear a cell, keep the clearing
only if the bounded solution count of a copy is exactly 1, else restore. -/
def removeLoop (cellsToRemove : ℕ) :
    List (Fin 9 × Fin 9) → ℕ → SudokuBoard → SudokuBoard
  | [], _, b => b
  | (r, c) :: rest, removed, b =>
    if cellsToRemove ≤ removed then b
    else
      let b1 := setCell b r c none
      if (countSolutions 81 b1 2).1 ≠ 1 then
        removeLoop cellsToRemove rest removed b
      else
        removeLoop cellsToRemove rest (removed + 1) b1

/-- `removeNumbers` from `sudokuGenerator.ts`. -/
def removeNumbers (rand : ℕ → ℕ) (b : SudokuBoard) (cellsToRemove : ℕ) :
    SudokuBoard :=
  removeLoop cellsToRemove (shuffle rand allCells) 0 b

/-- The difficulty levels of `generateSudoku`. -/
inductive Difficulty
  | easy
  | medium
  | hard
deriving DecidableEq

/-- `cellsToRemove` per difficulty: `{ easy: 40, medium: 50, hard: 57 }`. -/
def cellsToRemoveOf : Difficulty → ℕ
  | Difficulty.easy => 40
  | Difficulty.medium => 50
  | Difficulty.hard => 57

/-- `generateSudoku` from `sudokuGenerator.ts`: fill an empty board with a
randomized complete solution, then remove cells while the bounded solution
count stays exactly 1.  `removeNumbers`' own shuffle consumes the random
draws following those consumed by `fillBoard`. -/
def generateSudoku (rand : ℕ → ℕ) (difficulty : Difficulty) : SudokuBoard :=
  let fill := fillBoard rand createEmptyBoard
  removeNumbers (fun s => rand (8 * fill.2.2 + s)) fill.2.1
    (cellsToRemoveOf difficulty)

/-! ### Generator invariants -/

/-- Number of filled cells (clues) of a board. -/
def clueCount (b : SudokuBoard) : ℕ :=
  ((Finset.univ : Finset (Fin 9 × Fin 9)).filter
    fun p => cellIsEmpty (b p.1 p.2) = false).card

theorem clueCount_eq (b : SudokuBoard) : clueCount b = 81 - emptyCount b := by
  have hsplit : ((Finset.univ : Finset (Fin 9 × Fin 9)).filter
      fun p => cellIsEmpty (b p.1 p.2) = false) =
      (Finset.univ : Finset (Fin 9 × Fin 9)) \
        ((Finset.univ : Finset (Fin 9 × Fin 9)).filter
          fun p => cellIsEmpty (b p.1 p.2) = true) := by
    ext p
    simp only [Finset.mem_filter, Finset.mem_univ, true_and, Finset.mem_sdiff]
    cases h : cellIsEmpty (b p.1 p.2) <;> simp
  rw [clueCount, hsplit, Finset.card_sdiff (Finset.filter_subset _ _)]
  have : ((Finset.univ : Finset (Fin 9 × Fin 9))).card = 81 := by simp
  rw [this]
  rfl

theorem digits19_bounds {n : ℕ} (h : n ∈ digits19) : 1 ≤ n ∧ n ≤ 9 := by
  simp only [digits19, List.mem_cons, List.not_mem_nil, or_false] at h
  rcases h with rfl | rfl | rfl | rfl | rfl | rfl | rfl | rfl | rfl <;> omega

theorem mem_digits19 {n : ℕ} (h1 : 1 ≤ n) (h9 : n ≤ 9) : n ∈ digits19 := by
  interval_cases n <;> simp [digits19]

/-- Emptying a cell increases the number of empty cells by at most one. -/
theorem emptyCount_set_none_le (b : SudokuBoard) (r c : Fin 9) :
    emptyCount (setCell b r c none) ≤ emptyCount b + 1 := by
  cases he : cellIsEmpty (b r c) with
  | false =>
    rw [emptyCount_set_none he]
  | true =>
    have heq : emptyCount (setCell b r c none) = emptyCount b := by
      unfold emptyCount
      congr 1
      apply Finset.filter_congr
      intro p _
      by_cases hp : p.1 = r ∧ p.2 = c
      · have : setCell b r c none p.1 p.2 = none := by
          rw [← hp.1, ← hp.2] at *
          exact setCell_same _ _ _ _
        rw [this]
        rw [← hp.1, ← hp.2] at he
        rw [cellIsEmpty_none, he]
      · rw [setCell_ne _ _ _ _ hp]
    omega

/-- On a board with no empty cell `countSolutions` returns 1 immediately. -/
theorem countSolutions_full {b : SudokuBoard} (h : findEmpty b = none)
    (k limit : ℕ) : countSolutions (k + 1) b limit = (1, b) := by
  simp [countSolutions, h]

/-- Invariant of the removal loop: the bounded solution count stays exactly
1, and the number of emptied cells never exceeds the removal budget. -/
theorem removeLoop_invariant (target : ℕ) :
    ∀ (cells : List (Fin 9 × Fin 9)) (removed : ℕ) (b : SudokuBoard),
      (countSolutions 81 b 2).1 = 1 → emptyCount b ≤ removed →
      removed ≤ target →
      (countSolutions 81 (removeLoop target cells removed b) 2).1 = 1 ∧
      emptyCount (removeLoop target cells removed b) ≤ target := by
  intro cells
  induction cells with
  | nil =>
    intro removed b h1 h2 h3
    exact ⟨h1, h2.trans h3⟩
  | cons rc rest ih =>
    obtain ⟨r, c⟩ := rc
    intro removed b h1 h2 h3
    by_cases hbr : target ≤ removed
    · simp only [removeLoop, hbr, if_true]
      exact ⟨h1, h2.trans h3⟩
    · simp only [removeLoop, hbr, if_false]
      by_cases hcnt : (countSolutions 81 (setCell b r c none) 2).1 ≠ 1
      · rw [if_pos hcnt]
        exact ih removed b h1 h2 h3
      · rw [if_neg hcnt]
        rw [not_not] at hcnt
        have hle := emptyCount_set_none_le b r c
        exact ih (removed + 1) _ hcnt (by omega) (by omega)

/-! ### A concrete full solution grid (completeness witness for the fill) -/

/-- Build a board from a list of rows (the literal array form the source
uses for boards). -/
def boardOfRows (l : List (List Cell)) : SudokuBoard :=
  fun i j => (l.getD i []).getD j none

/-- A fixed valid solved grid. -/
def solGrid : SudokuBoard := boardOfRows [
  [some 1, some 2, some 3, some 4, some 5, some 6, some 7, some 8, some 9],
  [some 4, some 5, some 6, some 7, some 8, some 9, some 1, some 2, some 3],
  [some 7, some 8, some 9, some 1, some 2, some 3, some 4, some 5, some 6],
  [some 2, some 3, some 4, some 5, some 6, some 7, some 8, some 9, some 1],
  [some 5, some 6, some 7, some 8, some 9, some 1, some 2, some 3, some 4],
  [some 8, some 9, some 1, some 2, some 3, some 4, some 5, some 6, some 7],
  [some 3, some 4, some 5, some 6, some 7, some 8, some 9, some 1, some 2],
  [some 6, some 7, some 8, some 9, some 1, some 2, some 3, some 4, some 5],
  [some 9, some 1, some 2, some 3, some 4, some 5, some 6, some 7, some 8]]

set_option maxHeartbeats 2000000 in
theorem fullSolution_solGrid : fullSolution solGrid := by
  have hcell : ∀ i j : Fin 9, (solGrid i j).isSome = true ∧
      1 ≤ (solGrid i j).getD 0 ∧ (solGrid i j).getD 0 ≤ 9 := by decide
  refine ⟨?_, ?_, ?_, ?_⟩
  · intro i j
    obtain ⟨h1, h2, h3⟩ := hcell i j
    cases h : solGrid i j with
    | none =>
      rw [h] at h1
      exact absurd h1 (by decide)
    | some d =>
      rw [h] at h2 h3
      exact ⟨d, rfl, h2, h3⟩
  · decide
  · decide
  · decide

theorem fillBoard_def (rand : ℕ → ℕ) (b : SudokuBoard) :
    fillBoard rand b = solveCore (fillPick rand) 81 0 b := rfl

/-- `fillBoard` on the empty board always succeeds and produces a
completely filled board, whatever the random draws. -/
theorem fillBoard_filled (rand : ℕ → ℕ) :
    (fillBoard rand createEmptyBoard).1 = true ∧
    emptyCount (fillBoard rand createEmptyBoard).2.1 = 0 := by
  have hpickAll : ∀ t d, 1 ≤ d → d ≤ 9 → d ∈ fillPick rand t := by
    intro t d h1 h9
    exact (mem_shuffle _ _).mpr (mem_digits19 h1 h9)
  have hpickBnd : ∀ t, ∀ n ∈ fillPick rand t, 1 ≤ n ∧ n ≤ 9 := by
    intro t n hn
    exact digits19_bounds ((mem_shuffle _ _).mp hn)
  have hsub : subOf createEmptyBoard solGrid := by
    intro i j v h
    exact absurd h Option.noConfusion
  have hsucc : (solveCore (fillPick rand) 81 0 createEmptyBoard).1 = true :=
    solveCore_complete (fillPick rand) solGrid fullSolution_solGrid hpickAll
      81 0 createEmptyBoard (emptyCount_le_81 _) hsub
  have hsound := solveCore_sound (fillPick rand) hpickBnd 81 0 createEmptyBoard
    (emptyCount_le_81 _) hsucc
  rw [fillBoard_def]
  exact ⟨hsucc, (emptyCount_eq_zero_iff _).mpr hsound.1⟩

theorem generateSudoku_def (rand : ℕ → ℕ) (d : Difficulty) :
    generateSudoku rand d =
      removeLoop (cellsToRemoveOf d)
        (shuffle (fun s => rand (8 * (fillBoard rand createEmptyBoard).2.2 + s))
          allCells)
        0 (fillBoard rand createEmptyBoard).2.1 := rfl

/-! ### Claim theorems -/

/-- C1: For every difficulty and every outcome of the internal random
choices, the board returned by `generateSudoku` has exactly one completion
(the source's own solution-counting with cap 2 returns exactly 1 on it),
and its clue count is at least `81 - cellsToRemove` — i.e. at least 41 for
easy (40 removed), 31 for medium (50 removed) and 24 for hard (57
removed). -/
theorem generateSudoku_unique_solution_and_clue_bound
    (rand : ℕ → ℕ) (d : Difficulty) :
    (countSolutions 81 (generateSudoku rand d) 2).1 = 1 ∧
    81 - cellsToRemoveOf d ≤ clueCount (generateSudoku rand d) := by
  obtain ⟨hsucc, hfull⟩ := fillBoard_filled rand
  have hfe : findEmpty (fillBoard rand createEmptyBoard).2.1 = none :=
    (findEmpty_eq_none_iff _).mpr ((emptyCount_eq_zero_iff _).mp hfull)
  have hcnt1 : (countSolutions 81 (fillBoard rand createEmptyBoard).2.1 2).1 = 1 := by
    rw [show (81 : ℕ) = 80 + 1 from rfl, countSolutions_full hfe 80 2]
  have hinv := removeLoop_invariant (cellsToRemoveOf d)
    (shuffle (fun s => rand (8 * (fillBoard rand createEmptyBoard).2.2 + s))
      allCells)
    0 (fillBoard rand createEmptyBoard).2.1 hcnt1
    (by rw [hfull]) (Nat.zero_le _)
  rw [generateSudoku_def]
  refine ⟨hinv.1, ?_⟩
  rw [clueCount_eq]
  exact Nat.sub_le_sub_left hinv.2 81

theorem solveSudokuInstant_def (b : SudokuBoard) :
    solveSudokuInstant b =
      ((solveCore (fun _ => digits19) 81 0 b).1,
        (solveCore (fun _ => digits19) 81 0 b).2.1) := rfl

theorem solveSudokuInstant_fst (b : SudokuBoard) :
    (solveSudokuInstant b).1 = (solveCore (fun _ => digits19) 81 0 b).1 := rfl

theorem solveSudokuInstant_snd (b : SudokuBoard) :
    (solveSudokuInstant b).2 = (solveCore (fun _ => digits19) 81 0 b).2.1 := rfl

/-! ### Concrete boards used by witnesses and counterexamples -/

/-- `solGrid` with `(0,0)` and `(0,1)` emptied and `(3,1)` overwritten with
`2`: cell `(0,0)` admits only the digit `1`, after which `(0,1)` admits no
digit, and no other choice at `(0,0)` is valid — a small unsatisfiable
board whose search is fully evaluable. -/
def B5 : SudokuBoard :=
  setCell (setCell (setCell solGrid 0 0 none) 0 1 none) 3 1 (some 2)

/-- `B5` with the `(0,0)` empty marker written as `0` instead of `null`. -/
def B5zero : SudokuBoard := setCell B5 0 0 (some 0)

/-- A full board of 5s — completely filled but grossly invalid. -/
def allFives : SudokuBoard := fun _ _ => some 5

/-- A solved grid with one cell emptied: a trivially solvable input with
conflict-free clues. -/
def solGridMinus : SudokuBoard := setCell solGrid 8 8 none

/-- A 9×9 board with the out-of-range value 17 at `(0,0)` and one empty
cell at `(8,8)` (malformed input in the sense of the spec). -/
def S17bad : SudokuBoard := setCell (setCell solGrid 0 0 (some 17)) 8 8 none

/-- Empty board except for two 5s in row `r` at columns `c1` and `c2`. -/
def twoFives (r c1 c2 : Fin 9) : SudokuBoard :=
  fun i j => if i = r ∧ (j = c1 ∨ j = c2) then some 5 else none

/-- C6: `isValid(board,row,col,digit)` returns false exactly when the digit
already appears in one of the 9 cells of the row, one of the 9 cells of the
column, or one of the 9 cells of the box with origin
`(row - row % 3, col - col % 3)`.  (The embedding is purely functional, so
the board is unchanged by construction; the statement is proved for every
`digit : ℕ`, which subsumes the claim's digits 1–9.) -/
theorem isValid_false_iff_conflict (b : SudokuBoard) (row col : Fin 9)
    (num : ℕ) :
    isValid b row col num = false ↔
      (∃ x, b row x = some num) ∨ (∃ x, b x col = some num) ∨
      (∃ u v : Fin 3, b (boxIdx row u) (boxIdx col v) = some num) :=
  isValid_eq_false_iff b row col num

/-- C10: on a completely filled board (no `null` and no `0` cell),
`solveSudokuInstant` immediately returns `true` and leaves the board
unchanged — even when the filled cells violate the Sudoku constraints,
because pre-existing cell values are never validated. -/
theorem solveSudokuInstant_full_input (b : SudokuBoard)
    (h : ∀ i j, cellIsEmpty (b i j) = false) :
    solveSudokuInstant b = (true, b) := by
  have hfe : findEmpty b = none := (findEmpty_eq_none_iff b).mpr h
  have hcore : solveCore (fun _ => digits19) 81 0 b = (true, b, 0) := by
    rw [show (81 : ℕ) = 80 + 1 from rfl]
    simp [solveCore, hfe]
  rw [solveSudokuInstant_def, hcore]

/-- C10 witness: the all-5s board is completely filled (and invalid), and
the solver returns `true` leaving it unchanged. -/
theorem solveSudokuInstant_full_input_witness :
    (∀ i j, cellIsEmpty (allFives i j) = false) ∧
    solveSudokuInstant allFives = (true, allFives) :=
  ⟨by decide, solveSudokuInstant_full_input allFives (by decide)⟩

/-- C3 counterexample: `B5zero` holds the empty marker `0` at `(0,0)`; the
search tries that cell and undoes its writes with `null`, so after
`solveSudokuInstant` returns `false` the board differs from the input at
`(0,0)` (`null` instead of `0`). -/
theorem solveSudokuInstant_zero_cell_not_restored :
    (solveSudokuInstant B5zero).1 = false ∧
    (solveSudokuInstant B5zero).2 0 0 = none ∧ B5zero 0 0 = some 0 := by
  refine ⟨by decide, by decide, by decide⟩

/-- C3 (amended): on boards whose empty cells are all represented by
`null` (no cell holds `0`), a failed `solveSudokuInstant` call restores the
board exactly: every tentative write of the search is undone. -/
theorem solveSudokuInstant_false_restores (b : SudokuBoard)
    (h0 : ∀ i j, b i j ≠ some 0)
    (hf : (solveSudokuInstant b).1 = false) :
    (solveSudokuInstant b).2 = b := by
  rw [solveSudokuInstant_def] at hf ⊢
  have hres := solveCore_restore (fun _ => digits19) 81 0 b hf
  funext i j
  rcases hres i j with h | ⟨hb, _⟩
  · exact h
  · exact absurd hb (h0 i j)

/-- C3 witness: `B5` has no `0` cell, the solver fails on it, and the board
after the call equals the input. -/
theorem solveSudokuInstant_false_restores_witness :
    (∀ i j, B5 i j ≠ some 0) ∧ (solveSudokuInstant B5).1 = false ∧
    (solveSudokuInstant B5).2 = B5 :=
  ⟨by decide, by decide, solveSudokuInstant_false_restores B5 (by decide) (by decide)⟩

/-- C4: replaying the traced solver's step sequence against the original
board (each step applies its recorded snapshot; the final state is the last
snapshot, or the original board for an empty trace) reproduces exactly the
board state `solveSudokuInstant` leaves behind on the same input. -/
theorem solveSudoku_trace_replay_eq_instant (b : SudokuBoard) :
    replay b (solveSudoku 81 b).2.2 = (solveSudokuInstant b).2 := by
  have h1 := solveSudoku_replay 81 b
  have h2 := (solveSudoku_eq_solveCore 81 0 b).2
  rw [solveSudokuInstant_def, h1, h2]

/-! ### C2: residual conflicts after a successful solve -/

/-- The re-check of the spec: clear the cell and ask `isValid` for its
value. -/
def recheckOK (c : SudokuBoard) (i j : Fin 9) : Prop :=
  ∃ d, c i j = some d ∧ isValid (setCell c i j none) i j d = true

/-- The input's filled cells are pairwise conflict-free in every row,
column and box. -/
def cluesConflictFree (b : SudokuBoard) : Prop :=
  (∀ i : Fin 9, ∀ x y : Fin 9, x ≠ y → ∀ d : ℕ,
    b i x = some d → b i y ≠ some d) ∧
  (∀ j : Fin 9, ∀ x y : Fin 9, x ≠ y → ∀ d : ℕ,
    b x j = some d → b y j ≠ some d) ∧
  (∀ i j : Fin 9, ∀ u v : Fin 3, (boxIdx i u, boxIdx j v) ≠ (i, j) →
    ∀ d : ℕ, b i j = some d → b (boxIdx i u) (boxIdx j v) ≠ some d)

theorem recheckOK_of_unique {c : SudokuBoard} {i j : Fin 9} {d : ℕ}
    (hc : c i j = some d)
    (hrow : ∀ x, x ≠ j → c i x ≠ some d)
    (hcol : ∀ x, x ≠ i → c x j ≠ some d)
    (hbox : ∀ u v : Fin 3, (boxIdx i u, boxIdx j v) ≠ (i, j) →
      c (boxIdx i u) (boxIdx j v) ≠ some d) :
    recheckOK c i j := by
  refine ⟨d, hc, (isValid_eq_true_iff _ i j d).mpr ⟨?_, ?_, ?_⟩⟩
  · intro x
    by_cases hx : i = i ∧ x = j
    · rw [hx.2, setCell_same]
      exact Option.noConfusion
    · rw [setCell_ne _ _ _ _ hx]
      exact hrow x (fun hc2 => hx ⟨rfl, hc2⟩)
  · intro x
    by_cases hx : x = i ∧ j = j
    · rw [hx.1, setCell_same]
      exact Option.noConfusion
    · rw [setCell_ne _ _ _ _ hx]
      exact hcol x (fun hc2 => hx ⟨hc2, rfl⟩)
  · intro u v
    by_cases hx : boxIdx i u = i ∧ boxIdx j v = j
    · rw [hx.1, hx.2, setCell_same]
      exact Option.noConfusion
    · rw [setCell_ne _ _ _ _ hx]
      exact hbox u v (pair_ne_iff.mpr hx)

theorem placedOK_recheck {c : SudokuBoard} {i j : Fin 9}
    (h : placedOK c i j) : recheckOK c i j := by
  obtain ⟨d, hc, _, _, hrow, hcol, hbox⟩ := h
  exact recheckOK_of_unique hc hrow hcol hbox

/-- C2 counterexample: on the all-5s input `solveSudokuInstant` returns
`true`, yet re-checking the filled cell `(0,0)` against the rest of the
board yields `false` — the residual row/column/box conflicts between cells
that were already filled in the input remain. -/
theorem solveSudokuInstant_recheck_counterexample :
    (solveSudokuInstant allFives).1 = true ∧
    (solveSudokuInstant allFives).2 0 0 = some 5 ∧
    isValid (setCell (solveSudokuInstant allFives).2 0 0 none) 0 0 5 = false := by
  refine ⟨by decide, by decide, by decide⟩

/-- C2 (amended): when `solveSudokuInstant` returns `true`, the board has
no empty cell left and every cell the solver filled (empty in the input)
passes the re-check; if moreover the input's pre-filled cells are pairwise
conflict-free, every filled cell of the result passes the re-check.  (The
unconditional claim fails: conflicts between two input cells are never
examined.) -/
theorem solveSudokuInstant_true_recheck (b : SudokuBoard)
    (hs : (solveSudokuInstant b).1 = true) :
    (∀ i j, cellIsEmpty ((solveSudokuInstant b).2 i j) = false) ∧
    (∀ i j, cellIsEmpty (b i j) = true → recheckOK (solveSudokuInstant b).2 i j) ∧
    (cluesConflictFree b → ∀ i j, recheckOK (solveSudokuInstant b).2 i j) := by
  rw [solveSudokuInstant_fst] at hs
  rw [solveSudokuInstant_snd]
  have hpick : ∀ t : ℕ, ∀ n ∈ (fun _ : ℕ => digits19) t, 1 ≤ n ∧ n ≤ 9 :=
    fun _ n hn => digits19_bounds hn
  obtain ⟨hFull, hExt, hPlaced⟩ :=
    solveCore_sound (fun _ => digits19) hpick 81 0 b (emptyCount_le_81 b) hs
  set c := (solveCore (fun _ => digits19) 81 0 b).2.1 with hc
  refine ⟨hFull, fun i j he => placedOK_recheck (hPlaced i j he), ?_⟩
  intro hfree i j
  by_cases he : cellIsEmpty (b i j) = true
  · exact placedOK_recheck (hPlaced i j he)
  · rw [Bool.not_eq_true] at he
    have hcb : c i j = b i j := hExt i j he
    obtain ⟨d, hd⟩ : ∃ d, b i j = some d := by
      cases hbij : b i j with
      | none => rw [hbij] at he; exact absurd he (by decide)
      | some d => exact ⟨d, rfl⟩
    refine recheckOK_of_unique (hcb.trans hd) ?_ ?_ ?_
    · intro x hx hcon
      by_cases hex : cellIsEmpty (b i x) = true
      · obtain ⟨d2, hd2, _, _, hrowU, _, _⟩ := hPlaced i x hex
        have : d2 = d := (Option.some.injEq _ _).mp (hd2.symm.trans hcon)
        rw [this] at hrowU
        exact hrowU j (Ne.symm hx) (hcb.trans hd)
      · rw [Bool.not_eq_true] at hex
        rw [hExt i x hex] at hcon
        exact hfree.1 i x j hx d hcon (hd)
    · intro x hx hcon
      by_cases hex : cellIsEmpty (b x j) = true
      · obtain ⟨d2, hd2, _, _, _, hcolU, _⟩ := hPlaced x j hex
        have : d2 = d := (Option.some.injEq _ _).mp (hd2.symm.trans hcon)
        rw [this] at hcolU
        exact hcolU i (Ne.symm hx) (hcb.trans hd)
      · rw [Bool.not_eq_true] at hex
        rw [hExt x j hex] at hcon
        exact hfree.2.1 j x i hx d hcon (hd)
    · intro u v huv hcon
      by_cases hex : cellIsEmpty (b (boxIdx i u) (boxIdx j v)) = true
      · obtain ⟨d2, hd2, _, _, _, _, hboxU⟩ := hPlaced _ _ hex
        have hdd : d2 = d := (Option.some.injEq _ _).mp (hd2.symm.trans hcon)
        obtain ⟨u2, hu2⟩ := boxIdx_boxIdx i u
        obtain ⟨v2, hv2⟩ := boxIdx_boxIdx j v
        have hne2 : (boxIdx (boxIdx i u) u2, boxIdx (boxIdx j v) v2) ≠
            (boxIdx i u, boxIdx j v) := by
          rw [hu2, hv2]
          exact fun hcon2 => huv hcon2.symm
        have hres2 := hboxU u2 v2 hne2
        rw [hu2, hv2, hdd] at hres2
        exact hres2 (hcb.trans hd)
      · rw [Bool.not_eq_true] at hex
        rw [hExt _ _ hex] at hcon
        exact hfree.2.2 i j u v huv d hd hcon

/-- C2 witness: on a solved grid with one emptied cell the solver succeeds,
the input clues are conflict-free, and every cell of the result passes the
re-check. -/
theorem solveSudokuInstant_true_recheck_witness :
    (solveSudokuInstant solGridMinus).1 = true ∧
    cluesConflictFree solGridMinus ∧
    (∀ i j, recheckOK (solveSudokuInstant solGridMinus).2 i j) := by
  refine ⟨by decide, ?_, ?_⟩
  · refine ⟨by decide, by decide, by decide⟩
  · exact (solveSudokuInstant_true_recheck solGridMinus (by decide)).2.2
      ⟨by decide, by decide, by decide⟩

/-! ### C8: two fixed 5s in one row make the board unsolvable for the search

The search never validates the two fixed clues against each other, but a
successful run would fill every other row with a permutation of 1–9,
giving eight 5s that must sit in the seven columns other than the two clue
columns — impossible.  So the search exhausts and returns `false`. -/

/-- C8: on a board that is empty except for two cells of one row both
holding 5, `solveSudokuInstant` terminates (the embedding is a total
function) and returns `false` — it does not crash. -/
theorem solveSudokuInstant_twoFives_false (r c1 c2 : Fin 9) (hne : c1 ≠ c2) :
    (solveSudokuInstant (twoFives r c1 c2)).1 = false := by
  by_contra hcon
  rw [Bool.not_eq_false, solveSudokuInstant_fst] at hcon
  have hpick : ∀ t : ℕ, ∀ n ∈ (fun _ : ℕ => digits19) t, 1 ≤ n ∧ n ≤ 9 :=
    fun _ n hn => digits19_bounds hn
  obtain ⟨hFull, hExt, hPlaced⟩ :=
    solveCore_sound (fun _ => digits19) hpick 81 0 (twoFives r c1 c2)
      (emptyCount_le_81 _) hcon
  set c := (solveCore (fun _ => digits19) 81 0 (twoFives r c1 c2)).2.1 with hcdef
  have hb1 : twoFives r c1 c2 r c1 = some 5 := by simp [twoFives]
  have hb2 : twoFives r c1 c2 r c2 = some 5 := by simp [twoFives]
  have hbe : ∀ i j : Fin 9, i ≠ r → twoFives r c1 c2 i j = none := by
    intro i j hir
    simp [twoFives, hir]
  have hc1 : c r c1 = some 5 := by
    rw [hExt r c1 (by rw [hb1]; decide), hb1]
  have hc2 : c r c2 = some 5 := by
    rw [hExt r c2 (by rw [hb2]; decide), hb2]
  have hplace : ∀ i : Fin 9, i ≠ r → ∀ j, placedOK c i j := by
    intro i hir j
    apply hPlaced
    rw [hbe i j hir]
    decide
  -- every row other than `r` contains a 5, and not in columns c1 or c2
  have hrow5 : ∀ i : Fin 9, i ≠ r →
      ∃ w : Fin 9, c i w = some 5 ∧ w ≠ c1 ∧ w ≠ c2 := by
    intro i hir
    have hval : ∀ x : Fin 9, ∃ d, c i x = some d ∧ 1 ≤ d ∧ d ≤ 9 := by
      intro x
      obtain ⟨d, hd, h1, h9, _⟩ := hplace i hir x
      exact ⟨d, hd, h1, h9⟩
    choose dv hdv h1v h9v using hval
    have hlt : ∀ x, dv x - 1 < 9 := by
      intro x
      have := h9v x
      omega
    have hinj : Function.Injective (fun x => (⟨dv x - 1, hlt x⟩ : Fin 9)) := by
      intro x y hxy
      by_contra hxyne
      have hdeq : dv x = dv y := by
        have hv := congrArg Fin.val hxy
        simp only [] at hv
        have h1x := h1v x
        have h1y := h1v y
        omega
      obtain ⟨d, hd, _, _, hrowU, _, _⟩ := hplace i hir x
      have hdx : d = dv x := (Option.some.injEq _ _).mp ((hdv x).symm.trans hd).symm
      apply hrowU y (Ne.symm hxyne)
      rw [hdv y, ← hdeq, ← hdx]
    have hsurj := Finite.injective_iff_surjective.mp hinj
    obtain ⟨w, hw⟩ := hsurj ⟨4, by omega⟩
    have hw5 : dv w = 5 := by
      have hv := congrArg Fin.val hw
      simp only [] at hv
      have h1w := h1v w
      omega
    refine ⟨w, by rw [hdv w, hw5], ?_, ?_⟩
    · intro hwc1
      obtain ⟨d, hd, _, _, _, hcolU, _⟩ := hplace i hir w
      have hd5 : d = 5 := by
        have := (Option.some.injEq _ _).mp ((hdv w).symm.trans hd).symm
        omega
      apply hcolU r (Ne.symm hir)
      rw [hwc1, hd5]
      exact hc1
    · intro hwc2
      obtain ⟨d, hd, _, _, _, hcolU, _⟩ := hplace i hir w
      have hd5 : d = 5 := by
        have := (Option.some.injEq _ _).mp ((hdv w).symm.trans hd).symm
        omega
      apply hcolU r (Ne.symm hir)
      rw [hwc2, hd5]
      exact hc2
  -- pigeonhole: eight 5s cannot fit in seven columns
  have hchoice : ∀ i : Fin 9,
      ∃ w : Fin 9, i ≠ r → c i w = some 5 ∧ w ≠ c1 ∧ w ≠ c2 := by
    intro i
    by_cases hir : i = r
    · exact ⟨0, fun h => absurd hir h⟩
    · obtain ⟨w, hw⟩ := hrow5 i hir
      exact ⟨w, fun _ => hw⟩
  choose g hg using hchoice
  have hmaps : ∀ i ∈ Finset.univ.erase r,
      g i ∈ (Finset.univ.erase c1).erase c2 := by
    intro i hi
    have hir : i ≠ r := (Finset.mem_erase.mp hi).1
    obtain ⟨_, hw1, hw2⟩ := hg i hir
    exact Finset.mem_erase.mpr ⟨hw2, Finset.mem_erase.mpr ⟨hw1, Finset.mem_univ _⟩⟩
  have hcard : ((Finset.univ.erase c1).erase c2).card <
      (Finset.univ.erase r : Finset (Fin 9)).card := by
    have h1 : (Finset.univ.erase c1 : Finset (Fin 9)).card = 8 := by
      rw [Finset.card_erase_of_mem (Finset.mem_univ _), Finset.card_univ,
        Fintype.card_fin]
    have h2 : ((Finset.univ.erase c1).erase c2).card = 7 := by
      rw [Finset.card_erase_of_mem
        (Finset.mem_erase.mpr ⟨Ne.symm hne, Finset.mem_univ _⟩), h1]
    have h3 : (Finset.univ.erase r : Finset (Fin 9)).card = 8 := by
      rw [Finset.card_erase_of_mem (Finset.mem_univ _), Finset.card_univ,
        Fintype.card_fin]
    omega
  obtain ⟨x, hx, y, hy, hxy, hgxy⟩ :=
    Finset.exists_ne_map_eq_of_card_lt_of_maps_to hcard hmaps
  have hxr : x ≠ r := (Finset.mem_erase.mp hx).1
  have hyr : y ≠ r := (Finset.mem_erase.mp hy).1
  obtain ⟨hx5, _, _⟩ := hg x hxr
  obtain ⟨hy5, _, _⟩ := hg y hyr
  obtain ⟨d, hd, _, _, _, hcolU, _⟩ := hplace x hxr (g x)
  have hd5 : d = 5 := (Option.some.injEq _ _).mp (hd.symm.trans hx5)
  apply hcolU y (Ne.symm hxy)
  rw [hgxy, hd5]
  exact hy5

/-- C8 witness: the two 5s at `(0,0)` and `(0,1)` are in distinct columns
and the solver returns `false` on that board. -/
theorem solveSudokuInstant_twoFives_false_witness :
    (0 : Fin 9) ≠ (1 : Fin 9) ∧
    (solveSudokuInstant (twoFives 0 0 1)).1 = false :=
  ⟨by decide, solveSudokuInstant_twoFives_false 0 0 1 (by decide)⟩

/-! ### C5: when is the trace empty? -/

theorem solveTracedLoop_trace_empty
    (next : SudokuBoard → Bool × SudokuBoard × List SolveStep) (r c : Fin 9) :
    ∀ (nums : List ℕ) (b : SudokuBoard),
      (solveTracedLoop next r c nums b).2.2 = [] ↔
        ∀ n ∈ nums, isValid b r c n = false := by
  intro nums
  induction nums with
  | nil =>
    intro b
    simp [solveTracedLoop]
  | cons n rest ih =>
    intro b
    by_cases hv : isValid b r c n = true
    · simp only [solveTracedLoop, hv, if_true]
      constructor
      · intro h
        exfalso
        by_cases hres : (next (setCell b r c (some n))).1 = true
        · rw [if_pos hres] at h
          exact List.cons_ne_nil _ _ h
        · rw [if_neg hres] at h
          exact List.cons_ne_nil _ _ h
      · intro h
        exfalso
        have := h n (List.mem_cons_self n rest)
        rw [hv] at this
        exact Bool.noConfusion this
    · simp only [solveTracedLoop]
      rw [if_neg hv, ih b]
      constructor
      · intro h m hm
        rcases List.mem_cons.mp hm with rfl | hm2
        · rw [← Bool.not_eq_true]
          exact hv
        · exact h m hm2
      · intro h m hm
        exact h m (List.mem_cons_of_mem n hm)

/-- C5 counterexample: the board `B5` has no completion to a full valid
solution, yet the traced solver records a non-empty step sequence on it
(it places a digit before discovering unsatisfiability), refuting
"no solution ⇒ empty trace". -/
theorem solveSudoku_unsat_nonempty_trace :
    (¬ ∃ S, fullSolution S ∧ subOf B5 S) ∧
    (solveSudoku 81 B5).2.2.isEmpty = false := by
  constructor
  · rintro ⟨S, hS, hsub⟩
    have hcompl := solveCore_complete (fun _ => digits19) S hS
      (fun _ d h1 h9 => mem_digits19 h1 h9) 81 0 B5 (emptyCount_le_81 _) hsub
    have hfalse : (solveCore (fun _ => digits19) 81 0 B5).1 = false := by decide
    rw [hcompl] at hfalse
    exact Bool.noConfusion hfalse
  · decide

theorem solveSudoku_trace_empty_iff_aux (k : ℕ) (b : SudokuBoard) :
    (solveSudoku (k + 1) b).2.2 = [] ↔
      (findEmpty b = none ∨
        ∃ r c, findEmpty b = some (r, c) ∧
          ∀ n ∈ digits19, isValid b r c n = false) := by
  cases hfe : findEmpty b with
  | none =>
    have heq : solveSudoku (k + 1) b = (true, b, []) := by
      simp [solveSudoku, hfe]
    rw [heq]
    constructor
    · intro _
      exact Or.inl rfl
    · intro _
      rfl
  | some rc =>
    obtain ⟨r, c⟩ := rc
    have heq : solveSudoku (k + 1) b =
        solveTracedLoop (fun bb => solveSudoku k bb) r c digits19 b := by
      simp [solveSudoku, hfe]
    rw [heq, solveTracedLoop_trace_empty]
    constructor
    · intro h
      exact Or.inr ⟨r, c, rfl, h⟩
    · rintro (h | ⟨r2, c2, hfe2, h⟩)
      · exact absurd h Option.noConfusion
      · injection hfe2 with hfe2
        have h1 : r2 = r := (congrArg Prod.fst hfe2).symm
        have h2 : c2 = c := (congrArg Prod.snd hfe2).symm
        subst h1
        subst h2
        exact h

/-- C5 (amended): the traced solver returns an empty sequence exactly when
it never places a digit — the board has no empty cell (search succeeds
immediately), or no digit 1–9 passes `isValid` at the first empty cell
(search fails immediately).  Empty trace therefore does not mean
unsatisfiable (a complete board yields an empty trace with success), and an
unsatisfiable board can yield a non-empty trace. -/
theorem solveSudoku_trace_empty_iff (b : SudokuBoard) :
    (solveSudoku 81 b).2.2 = [] ↔
      (findEmpty b = none ∨
        ∃ r c, findEmpty b = some (r, c) ∧
          ∀ n ∈ digits19, isValid b r c n = false) :=
  solveSudoku_trace_empty_iff_aux 80 b

/-- C9: the solver performs no input validation.  On a 9×9 board holding
the out-of-range value 17 (with one empty cell), `solveSudokuInstant` does
not reject: it runs the search, fills the empty cell, returns `true`, and
silently keeps the malformed value in the returned board. -/
theorem solveSudokuInstant_malformed_not_rejected :
    (solveSudokuInstant S17bad).1 = true ∧
    (solveSudokuInstant S17bad).2 0 0 = some 17 ∧
    S17bad 8 8 = none ∧
    (solveSudokuInstant S17bad).2 8 8 = some 8 := by
  refine ⟨by decide, by decide, by decide, by decide⟩

/-! ### The validator (`sudokuValidation.ts`) -/

/-- The `type` field of a `ValidationError`. -/
inductive ErrKind
  | row
  | column
  | box
  | invalid
deriving DecidableEq

/-- `ValidationError` from `sudokuValidation.ts`. -/
structure ValidationError where
  row : Fin 9
  col : Fin 9
  type : ErrKind
  message : String
deriving DecidableEq

/-- `validateBoard` from `sudokuValidation.ts`: scan every filled cell in
row-major order (`value === null || value === 0` cells are skipped); for
each, compare cell values (`board[...] === value`) against the rest of the
row, the column, and the 3×3 box.  The row and column scans are single
loops whose `break` exits the whole scan, so they push at most one error
each (`any` captures that).  The box scan's `break` exits only the inner
column loop: the outer loop over the three box rows continues, so one box
error is pushed for every box row that contains a duplicate — up to three
per cell. -/
def validateBoard (b : SudokuBoard) : List ValidationError :=
  (List.finRange 9).flatMap fun row =>
    (List.finRange 9).flatMap fun col =>
      if b row col = none ∨ b row col = some 0 then []
      else
        (if (List.finRange 9).any
            (fun c2 => decide (c2 ≠ col ∧ b row c2 = b row col)) then
          [⟨row, col, ErrKind.row,
            s!"Duplicate {(b row col).getD 0} in row"⟩] else []) ++
        (if (List.finRange 9).any
            (fun r2 => decide (r2 ≠ row ∧ b r2 col = b row col)) then
          [⟨row, col, ErrKind.column,
            s!"Duplicate {(b row col).getD 0} in column"⟩] else []) ++
        ((List.finRange 3).flatMap fun u =>
          if (List.finRange 3).any (fun w =>
              decide (¬(boxIdx row u = row ∧ boxIdx col w = col) ∧
                b (boxIdx row u) (boxIdx col w) = b row col)) then
            [⟨row, col, ErrKind.box,
              s!"Duplicate {(b row col).getD 0} in 3×3 box"⟩] else [])

theorem validateBoard_solved_nil {b : SudokuBoard} (h : fullSolution b) :
    validateBoard b = [] := by
  rw [validateBoard, List.flatMap_eq_nil_iff]
  intro row _
  rw [List.flatMap_eq_nil_iff]
  intro col _
  obtain ⟨v, hv, h1, h9⟩ := h.1 row col
  have hne : ¬(b row col = none ∨ b row col = some 0) := by
    rw [hv]
    rintro (hc | hc)
    · exact Option.noConfusion hc
    · injection hc with hc
      omega
  rw [if_neg hne]
  have hrow : ((List.finRange 9).any
      fun c2 => decide (c2 ≠ col ∧ b row c2 = b row col)) = false := by
    rw [← Bool.not_eq_true, List.any_eq_true]
    rintro ⟨c2, _, hc2⟩
    rw [decide_eq_true_eq] at hc2
    exact h.2.1 row c2 col hc2.1 hc2.2
  have hcol : ((List.finRange 9).any
      fun r2 => decide (r2 ≠ row ∧ b r2 col = b row col)) = false := by
    rw [← Bool.not_eq_true, List.any_eq_true]
    rintro ⟨r2, _, hr2⟩
    rw [decide_eq_true_eq] at hr2
    exact h.2.2.1 col r2 row hr2.1 hr2.2
  have hbox : ∀ u : Fin 3, ((List.finRange 3).any fun w =>
      decide (¬(boxIdx row u = row ∧ boxIdx col w = col) ∧
        b (boxIdx row u) (boxIdx col w) = b row col)) = false := by
    intro u
    rw [← Bool.not_eq_true, List.any_eq_true]
    rintro ⟨w, _, hw⟩
    rw [decide_eq_true_eq] at hw
    exact h.2.2.2 row col u w (pair_ne_iff.mpr hw.1) hw.2
  have hboxnil : ((List.finRange 3).flatMap fun u =>
      if (List.finRange 3).any (fun w =>
          decide (¬(boxIdx row u = row ∧ boxIdx col w = col) ∧
            b (boxIdx row u) (boxIdx col w) = b row col)) then
        [(⟨row, col, ErrKind.box,
          s!"Duplicate {(b row col).getD 0} in 3×3 box"⟩ : ValidationError)]
      else []) = [] := by
    rw [List.flatMap_eq_nil_iff]
    intro u _
    rw [hbox u]
    rfl
  rw [hrow, hcol, hboxnil]
  rfl

theorem validateBoard_empty_cells_no_error (b : SudokuBoard)
    (e : ValidationError) (he : e ∈ validateBoard b) :
    cellIsEmpty (b e.row e.col) = false := by
  rw [validateBoard] at he
  rw [List.mem_flatMap] at he
  obtain ⟨row, _, he⟩ := he
  rw [List.mem_flatMap] at he
  obtain ⟨col, _, he⟩ := he
  by_cases hcell : b row col = none ∨ b row col = some 0
  · rw [if_pos hcell] at he
    exact absurd he (List.not_mem_nil e)
  · rw [if_neg hcell] at he
    have hfields : e.row = row ∧ e.col = col := by
      rcases List.mem_append.mp he with he2 | he2
      · rcases List.mem_append.mp he2 with he3 | he3
        · split at he3
          · rcases List.mem_singleton.mp he3 with rfl
            exact ⟨rfl, rfl⟩
          · exact absurd he3 (List.not_mem_nil e)
        · split at he3
          · rcases List.mem_singleton.mp he3 with rfl
            exact ⟨rfl, rfl⟩
          · exact absurd he3 (List.not_mem_nil e)
      · rw [List.mem_flatMap] at he2
        obtain ⟨u, _, he2⟩ := he2
        split at he2
        · rcases List.mem_singleton.mp he2 with rfl
          exact ⟨rfl, rfl⟩
        · exact absurd he2 (List.not_mem_nil e)
    rw [hfields.1, hfields.2]
    rw [← Bool.not_eq_true, cellIsEmpty_iff]
    exact hcell

/-- C7: `validateBoard` returns `[]` on a solved fully valid board; on a
board whose only filled cells are two 5s in one row, in different boxes
(so nothing besides the row is wrong), it returns exactly two errors — one
per conflicting cell, in scan order, both tagged `row`; and empty cells
never contribute errors on any board. -/
theorem validateBoard_spec :
    (∀ b : SudokuBoard, fullSolution b → validateBoard b = []) ∧
    (∀ r c1 c2 : Fin 9, c1 < c2 → (c1 : ℕ) / 3 ≠ (c2 : ℕ) / 3 →
      validateBoard (twoFives r c1 c2) =
        [⟨r, c1, ErrKind.row, "Duplicate 5 in row"⟩,
         ⟨r, c2, ErrKind.row, "Duplicate 5 in row"⟩]) ∧
    (∀ (b : SudokuBoard) (e : ValidationError), e ∈ validateBoard b →
      cellIsEmpty (b e.row e.col) = false) := by
  refine ⟨fun b h => validateBoard_solved_nil h, ?_, validateBoard_empty_cells_no_error⟩
  decide

/-- C7 witness: the fixed solved grid validates to `[]`, and the concrete
two-5s board (row 0, columns 0 and 3) produces exactly the two row-tagged
errors. -/
theorem validateBoard_spec_witness :
    validateBoard solGrid = [] ∧
    validateBoard (twoFives 0 0 3) =
      [⟨0, 0, ErrKind.row, "Duplicate 5 in row"⟩,
       ⟨0, 3, ErrKind.row, "Duplicate 5 in row"⟩] :=
  ⟨validateBoard_spec.1 solGrid fullSolution_solGrid,
   validateBoard_spec.2.1 0 0 3 (by decide) (by decide)⟩

end Sudoku
